import Mathlib

/-
A shallow embedding of pysiteindex's site-index solvers and curve equations
(src/pysiteindex/si.py and src/pysiteindex/misc_hg_funcs.py).

Python floats are modelled as exact rationals.  A raised exception that
propagates to the caller is modelled as `Option.none`; the distinguished
float values None, NaN and the two infinities are constructors of `PyVal`.
The solvers are instrumented so that observable behaviour stated by the
specification (number of height-function evaluations, the sequence of
midpoints evaluated, whether a warning was logged) is part of the result.
-/

/-- The distinguished Python values a height argument or a solver result can
take: `None`, `nan`, `inf`, `-inf`, or an ordinary (finite) float, modelled
as an exact rational. -/
inductive PyVal : Type where
  | pynone : PyVal
  | nan : PyVal
  | inf : PyVal
  | ninf : PyVal
  | num : ℚ → PyVal
  deriving DecidableEq

/-- The `while i < max_iters` loop of `find_si` (si.py lines 63-83).  `fuel`
is the number of remaining iterations (`max_iters - i`); `midq` holds the
last computed midpoint, `Option.none` before any iteration has run
(modelling Python's unbound local `mid_si`, a `NameError` if the loop body
never executes).  The result pairs the returned value with the number of
`ht_func` evaluations performed.  The source's `mid_ht == np.NaN` test is
omitted: comparing equal to NaN is always false under IEEE semantics, and
the height function here is rational-valued, so that branch is unreachable. -/
def si_while (f : ℚ → ℚ → ℚ) (bha ht ht_err : ℚ) :
    ℚ → ℚ → Option ℚ → ℕ → Option ℚ × ℕ
  | _, _, midq, 0 => (midq, 0)
  | min_si, max_si, _, fuel+1 =>
    let mid_si := (min_si + max_si) / 2
    let mid_ht := f bha mid_si
    if |ht - mid_ht| ≤ ht_err then (some mid_si, 1)
    else if mid_ht > ht then
      let p := si_while f bha ht ht_err min_si mid_si (some mid_si) fuel
      (p.1, p.2 + 1)
    else if mid_ht < ht then
      let p := si_while f bha ht ht_err mid_si max_si (some mid_si) fuel
      (p.1, p.2 + 1)
    else
      let p := si_while f bha ht ht_err min_si max_si (some mid_si) fuel
      (p.1, p.2 + 1)

/-- Function `find_si` (si.py lines 30-83).  Returns the value produced (`none` for
the `NameError` raised when `max_iters = 0` lets the loop body never run)
together with the number of `ht_func` evaluations performed. -/
def find_si (ht_func : ℚ → ℚ → ℚ) (bha : ℚ) (ht : PyVal)
    (min_si max_si : ℚ) (max_iters : ℕ) (ht_err : ℚ) : Option PyVal × ℕ :=
  match ht with
  | .num q =>
    if q ≤ 0 then (some .ninf, 0)
    else if ht_func bha min_si > q then (some .ninf, 1)
    else if ht_func bha max_si < q then (some .inf, 2)
    else
      let p := si_while ht_func bha q ht_err min_si max_si none max_iters
      (p.1.map PyVal.num, p.2 + 2)
  | _ => (some .ninf, 0)

/-- The bisection loop exactly as the specification words it (claim C2):
repeatedly compute the midpoint and its height, return the midpoint as soon
as the height is within tolerance of the target, otherwise pull the upper
bound down to the midpoint when the midpoint height exceeds the target and
push the lower bound up to it when it falls short, and on exhausting the
iteration budget return the last computed midpoint (`last`).  The second
component counts midpoint evaluations. -/
def claimBisect (f : ℚ → ℚ → ℚ) (bha ht tol : ℚ) :
    ℚ → ℚ → ℚ → ℕ → ℚ × ℕ
  | last, _, _, 0 => (last, 0)
  | _, lo, hi, fuel+1 =>
    let mid := (lo + hi) / 2
    let mh := f bha mid
    if |ht - mh| ≤ tol then (mid, 1)
    else if mh > ht then
      let p := claimBisect f bha ht tol mid lo mid fuel
      (p.1, p.2 + 1)
    else if mh < ht then
      let p := claimBisect f bha ht tol mid mid hi fuel
      (p.1, p.2 + 1)
    else
      let p := claimBisect f bha ht tol mid lo hi fuel
      (p.1, p.2 + 1)

/-- The claim-side loop performs at most `fuel` midpoint evaluations. -/
theorem claimBisect_count_le (f : ℚ → ℚ → ℚ) (bha ht tol : ℚ) :
    ∀ (fuel : ℕ) (last lo hi : ℚ),
      (claimBisect f bha ht tol last lo hi fuel).2 ≤ fuel := by
  intro fuel
  induction fuel with
  | zero => intro last lo hi; simp [claimBisect]
  | succ n ih =>
    intro last lo hi
    simp only [claimBisect]
    split_ifs <;> simp <;> exact ih _ _ _

/-- The source loop with a computed last midpoint agrees with the claim-side
loop seeded with that midpoint. -/
theorem si_while_eq_claimBisect (f : ℚ → ℚ → ℚ) (bha ht tol : ℚ) :
    ∀ (fuel : ℕ) (lo hi m : ℚ),
      si_while f bha ht tol lo hi (some m) fuel
        = (some (claimBisect f bha ht tol m lo hi fuel).1,
           (claimBisect f bha ht tol m lo hi fuel).2) := by
  intro fuel
  induction fuel with
  | zero => intro lo hi m; simp [si_while, claimBisect]
  | succ n ih =>
    intro lo hi m
    simp only [si_while, claimBisect]
    split_ifs <;> simp [ih]

/-- With at least one iteration of budget the source loop (whose last
midpoint starts out unbound) returns exactly the claim-side loop's result,
for any seed. -/
theorem si_while_none_eq_claimBisect (f : ℚ → ℚ → ℚ) (bha ht tol : ℚ)
    (lo hi seed : ℚ) (n : ℕ) (hn : 1 ≤ n) :
    si_while f bha ht tol lo hi none n
      = (some (claimBisect f bha ht tol seed lo hi n).1,
         (claimBisect f bha ht tol seed lo hi n).2) := by
  obtain ⟨m, rfl⟩ : ∃ m, n = m + 1 := ⟨n - 1, by omega⟩
  simp only [si_while, claimBisect]
  split_ifs <;> simp [si_while_eq_claimBisect]

/-- C1: for a finite positive target height with `min_si < max_si`, when the
height at the low bound already exceeds the target, `find_si` returns
negative infinity after a single height evaluation; when the low-bound
height is at most the target and the high-bound height is below it,
`find_si` returns positive infinity after exactly two height evaluations.
Both are normal `some` results (no exception) and the evaluation counts
show the bisection loop was never entered. -/
theorem find_si_bounds_sentinels (f : ℚ → ℚ → ℚ) (bha q min_si max_si ht_err : ℚ)
    (n : ℕ) (hq : 0 < q) (hbounds : min_si < max_si) :
    (f bha min_si > q →
      find_si f bha (.num q) min_si max_si n ht_err = (some .ninf, 1)) ∧
    (f bha min_si ≤ q → f bha max_si < q →
      find_si f bha (.num q) min_si max_si n ht_err = (some .inf, 2)) := by
  constructor
  · intro h
    simp only [find_si]
    rw [if_neg (not_le.mpr hq), if_pos h]
  · intro h1 h2
    simp only [find_si]
    rw [if_neg (not_le.mpr hq), if_neg (not_lt.mpr h1), if_pos h2]

/-- Witness for C1 at a concrete height function and inputs. -/
theorem find_si_bounds_sentinels_witness :
    ((fun _ s => s : ℚ → ℚ → ℚ) 0 5 > 1 →
      find_si (fun _ s => s) 0 (.num 1) 5 300 20 (1/10) = (some .ninf, 1)) ∧
    ((fun _ s => s : ℚ → ℚ → ℚ) 0 5 ≤ 1 → (fun _ s => s : ℚ → ℚ → ℚ) 0 300 < 1 →
      find_si (fun _ s => s) 0 (.num 1) 5 300 20 (1/10) = (some .inf, 2)) :=
  find_si_bounds_sentinels (fun _ s => s) 0 1 5 300 (1/10) 20
    (by norm_num) (by norm_num)

/-- C9: a target height that is `None`, NaN, infinite, or a non-positive
rational makes `find_si` return negative infinity at once, with zero
height-function evaluations. -/
theorem find_si_invalid_height_ninf (f : ℚ → ℚ → ℚ) (bha min_si max_si ht_err : ℚ)
    (n : ℕ) :
    find_si f bha .pynone min_si max_si n ht_err = (some .ninf, 0) ∧
    find_si f bha .nan min_si max_si n ht_err = (some .ninf, 0) ∧
    find_si f bha .inf min_si max_si n ht_err = (some .ninf, 0) ∧
    find_si f bha .ninf min_si max_si n ht_err = (some .ninf, 0) ∧
    (∀ q : ℚ, q ≤ 0 →
      find_si f bha (.num q) min_si max_si n ht_err = (some .ninf, 0)) := by
  refine ⟨rfl, rfl, rfl, rfl, ?_⟩
  intro q hq
  simp only [find_si]
  rw [if_pos hq]

/-- Witness for C9 with a concrete non-positive target height. -/
theorem find_si_invalid_height_ninf_witness :
    find_si (fun _ s => s) 0 (.num 0) 5 300 20 (1/10) = (some .ninf, 0) :=
  (find_si_invalid_height_ninf (fun _ s => s) 0 5 300 (1/10) 20).2.2.2.2 0
    (by norm_num)

/-- C2: on an in-bounds target (low-bound height not above the target,
high-bound height not below it) with a positive iteration budget, `find_si`
returns, as a normal value, exactly the result of the claim's bisection
loop, performing that loop's midpoint evaluations (at most `max_iters` of
them) plus the two bound-check evaluations.  In particular, on exhausting
the budget the returned value is `claimBisect`'s carried last midpoint,
indistinguishable from a converged result. -/
theorem find_si_refines_claim_bisection (f : ℚ → ℚ → ℚ)
    (bha q min_si max_si ht_err : ℚ) (n : ℕ) (hn : 1 ≤ n) (hq : 0 < q)
    (hlo : ¬ f bha min_si > q) (hhi : ¬ f bha max_si < q) :
    find_si f bha (.num q) min_si max_si n ht_err
      = (some (.num (claimBisect f bha q ht_err 0 min_si max_si n).1),
         (claimBisect f bha q ht_err 0 min_si max_si n).2 + 2) ∧
    (claimBisect f bha q ht_err 0 min_si max_si n).2 ≤ n := by
  refine ⟨?_, claimBisect_count_le f bha q ht_err n 0 min_si max_si⟩
  simp only [find_si]
  rw [if_neg (not_le.mpr hq), if_neg hlo, if_neg hhi,
    si_while_none_eq_claimBisect f bha q ht_err min_si max_si 0 n hn]
  rfl

/-- Witness for C2 at a concrete height function and inputs. -/
theorem find_si_refines_claim_bisection_witness :
    find_si (fun _ s => s) 0 (.num 1) 0 2 1 1
      = (some (.num (claimBisect (fun _ s => s) 0 1 1 0 0 2 1).1),
         (claimBisect (fun _ s => s) 0 1 1 0 0 2 1).2 + 2) ∧
    (claimBisect (fun _ s => s) 0 1 1 0 0 2 1).2 ≤ 1 :=
  find_si_refines_claim_bisection (fun _ s => s) 0 1 0 2 1 1
    (by norm_num) (by norm_num) (by norm_num) (by norm_num)

/-- The tolerance actually used by `find_bha` (si.py lines 113-115): a
non-positive `ht_err` is replaced by 0.001 so the search terminates. -/
def bha_err (ht_err : ℚ) : ℚ :=
  if ht_err ≤ 0 then 1/1000 else ht_err

/-- The `while` loop of `find_bha` (si.py lines 129-144).  `fuel` is the
number of remaining steps (`max_steps - i`), `check_ht` the height checked
by the loop condition, and `midq` the last computed midpoint (`Option.none`
before the first iteration, modelling the unbound local `mid`).  The second
component is the list of midpoints at which `ht_func` was evaluated, in
order; its length is the number of height evaluations. -/
def bha_while (f : ℚ → ℚ → ℚ) (si ht ht_err : ℚ) :
    ℚ → ℚ → ℚ → Option ℚ → ℕ → Option ℚ × List ℚ
  | _, _, _, midq, 0 => (midq, [])
  | first, last, check_ht, midq, fuel+1 =>
    if |check_ht - ht| > ht_err then
      let mid := (first + last) / 2
      let ch := f mid si
      let p :=
        if ht < ch then bha_while f si ht ht_err first mid ch (some mid) fuel
        else bha_while f si ht ht_err mid last ch (some mid) fuel
      (p.1, mid :: p.2)
    else (midq, [])

/-- Function `find_bha` (si.py lines 85-144).  Returns the value produced (`none`
models the `NameError` when the loop body never runs), the list of
midpoints at which `ht_func` was evaluated, and whether a warning was
logged (the two boundary clamps each log one). -/
def find_bha (ht_func : ℚ → ℚ → ℚ) (si ht ht_err : ℚ) (max_steps : ℕ)
    (min_bha max_bha min_ht max_ht : ℚ) : Option ℚ × List ℚ × Bool :=
  let err := bha_err ht_err
  if ht ≤ min_ht then (some min_bha, [], true)
  else if ht ≥ max_ht then (some max_bha, [], true)
  else
    let p := bha_while ht_func si ht err min_bha max_bha (ht + err + 999) none
        max_steps
    (p.1, p.2, false)

/-- C5: a target height at or below the curve minimum makes `find_bha`
return `min_bha`, and (when the height range is nondegenerate) a target at
or above the curve maximum makes it return `max_bha`; both as normal values
accompanied by a warning, with no height-function evaluation (empty
evaluation trace). -/
theorem find_bha_boundary_clamps (f : ℚ → ℚ → ℚ) (si ht ht_err : ℚ) (n : ℕ)
    (min_bha max_bha min_ht max_ht : ℚ) (hrange : min_ht < max_ht) :
    (ht ≤ min_ht →
      find_bha f si ht ht_err n min_bha max_bha min_ht max_ht
        = (some min_bha, [], true)) ∧
    (max_ht ≤ ht →
      find_bha f si ht ht_err n min_bha max_bha min_ht max_ht
        = (some max_bha, [], true)) := by
  constructor
  · intro h
    simp only [find_bha]
    rw [if_pos h]
  · intro h
    simp only [find_bha]
    rw [if_neg (by linarith : ¬ ht ≤ min_ht), if_pos (by linarith : ht ≥ max_ht)]

/-- Witness for C5 at concrete inputs on both sides of the height range. -/
theorem find_bha_boundary_clamps_witness :
    ((0 : ℚ) ≤ 10 →
      find_bha (fun _ _ => 0) 100 0 (1/20) 50 0 500 10 400
        = (some 0, [], true)) ∧
    ((400 : ℚ) ≤ 450 →
      find_bha (fun _ _ => 0) 100 450 (1/20) 50 0 500 10 400
        = (some 500, [], true)) :=
  ⟨(find_bha_boundary_clamps (fun _ _ => 0) 100 0 (1/20) 50 0 500 10 400
      (by norm_num)).1,
   (find_bha_boundary_clamps (fun _ _ => 0) 100 450 (1/20) 50 0 500 10 400
      (by norm_num)).2⟩


/-- Once the loop of `find_bha` has a computed midpoint in hand, its result
is a normal value, namely the last midpoint of the extended evaluation
trace. -/
theorem bha_while_seeded (f : ℚ → ℚ → ℚ) (si ht ht_err : ℚ) :
    ∀ (fuel : ℕ) (first last check m : ℚ),
      ∃ r, (bha_while f si ht ht_err first last check (some m) fuel).1 = some r ∧
        (m :: (bha_while f si ht ht_err first last check (some m) fuel).2).getLast?
          = some r := by
  intro fuel
  induction fuel with
  | zero => intro first last check m; simp [bha_while]
  | succ n ih =>
    intro first last check m
    simp only [bha_while]
    split_ifs with hc hb
    · obtain ⟨r, hr1, hr2⟩ := ih first ((first + last) / 2)
        (f ((first + last) / 2) si) ((first + last) / 2)
      exact ⟨r, hr1, by rw [List.getLast?_cons_cons]; exact hr2⟩
    · obtain ⟨r, hr1, hr2⟩ := ih ((first + last) / 2) last
        (f ((first + last) / 2) si) ((first + last) / 2)
      exact ⟨r, hr1, by rw [List.getLast?_cons_cons]; exact hr2⟩
    · exact ⟨m, rfl, rfl⟩

/-- C7: for a target height strictly inside the curve's height range and at
least one step of budget, the seeded check height `ht + err + 999` is out
of tolerance, so `find_bha` executes at least one bisection iteration: the
height function is evaluated first at `(min_bha + max_bha)/2`, the
evaluation trace is nonempty, and the returned value is the last midpoint
computed inside the loop — never a degenerate zero-iteration result. -/
theorem find_bha_enters_loop (f : ℚ → ℚ → ℚ) (si ht ht_err : ℚ) (n : ℕ)
    (min_bha max_bha min_ht max_ht : ℚ)
    (h1 : min_ht < ht) (h2 : ht < max_ht) (hn : 1 ≤ n) :
    |ht + bha_err ht_err + 999 - ht| > bha_err ht_err ∧
    ∃ r tr, find_bha f si ht ht_err n min_bha max_bha min_ht max_ht
        = (some r, tr, false) ∧
      tr ≠ [] ∧ tr.head? = some ((min_bha + max_bha) / 2) ∧
      tr.getLast? = some r := by
  have herr : 0 < bha_err ht_err := by
    unfold bha_err
    split_ifs with h
    · norm_num
    · exact not_le.mp h
  have hseed : |ht + bha_err ht_err + 999 - ht| > bha_err ht_err := by
    rw [abs_of_pos (by linarith)]
    linarith
  refine ⟨hseed, ?_⟩
  obtain ⟨m, rfl⟩ : ∃ m, n = m + 1 := ⟨n - 1, by omega⟩
  simp only [find_bha]
  rw [if_neg (by linarith : ¬ ht ≤ min_ht), if_neg (not_le.mpr h2)]
  simp only [bha_while]
  rw [if_pos hseed]
  by_cases hbr : ht < f ((min_bha + max_bha) / 2) si
  · rw [if_pos hbr]
    obtain ⟨r, hr1, hr2⟩ := bha_while_seeded f si ht (bha_err ht_err) m
      min_bha ((min_bha + max_bha) / 2) (f ((min_bha + max_bha) / 2) si)
      ((min_bha + max_bha) / 2)
    exact ⟨r, _, by rw [hr1], by simp, by simp, hr2⟩
  · rw [if_neg hbr]
    obtain ⟨r, hr1, hr2⟩ := bha_while_seeded f si ht (bha_err ht_err) m
      ((min_bha + max_bha) / 2) max_bha (f ((min_bha + max_bha) / 2) si)
      ((min_bha + max_bha) / 2)
    exact ⟨r, _, by rw [hr1], by simp, by simp, hr2⟩

/-- Witness for C7 at a concrete height function and inputs. -/
theorem find_bha_enters_loop_witness :
    |(50 : ℚ) + bha_err (1/10) + 999 - 50| > bha_err (1/10) ∧
    ∃ r tr, find_bha (fun a _ => a) 100 50 (1/10) 50 0 500 0 500
        = (some r, tr, false) ∧
      tr ≠ [] ∧ tr.head? = some (((0 : ℚ) + 500) / 2) ∧
      tr.getLast? = some r :=
  find_bha_enters_loop (fun a _ => a) 100 50 (1/10) 50 0 500 0 500
    (by norm_num) (by norm_num) (by norm_num)

/-- The loop of `find_bha` keeps its bracket inside the initial interval:
if the bracket endpoints and the carried midpoint lie inside
`[lo, hi]` with `first ≤ last`, then so does any value the loop returns. -/
theorem bha_while_mem (f : ℚ → ℚ → ℚ) (si ht ht_err lo hi : ℚ) :
    ∀ (fuel : ℕ) (first last check : ℚ) (midq : Option ℚ),
      lo ≤ first → first ≤ last → last ≤ hi →
      (∀ m, midq = some m → lo ≤ m ∧ m ≤ hi) →
      ∀ r, (bha_while f si ht ht_err first last check midq fuel).1 = some r →
        lo ≤ r ∧ r ≤ hi := by
  intro fuel
  induction fuel with
  | zero =>
    intro first last check midq _ _ _ hm r hr
    exact hm r hr
  | succ n ih =>
    intro first last check midq hl hfl hh hm r hr
    simp only [bha_while] at hr
    split_ifs at hr with hc hb <;> dsimp only at hr
    · refine ih first ((first + last) / 2) (f ((first + last) / 2) si)
        (some ((first + last) / 2)) hl (by linarith) (by linarith) ?_ r hr
      intro m hm'
      cases hm'
      constructor <;> linarith
    · refine ih ((first + last) / 2) last (f ((first + last) / 2) si)
        (some ((first + last) / 2)) (by linarith) (by linarith) hh ?_ r hr
      intro m hm'
      cases hm'
      constructor <;> linarith
    · exact hm r hr

/-- C10: whenever `find_bha` returns a value (rather than raising), that
value lies in the closed interval `[min_bha, max_bha]`; moreover the
effective tolerance is positive (a non-positive `ht_err` is coerced to
0.001, keeping the loop condition meaningful). -/
theorem find_bha_result_in_range (f : ℚ → ℚ → ℚ) (si ht ht_err : ℚ) (n : ℕ)
    (min_bha max_bha min_ht max_ht : ℚ) (hlh : min_bha ≤ max_bha) :
    0 < bha_err ht_err ∧
    ∀ r, (find_bha f si ht ht_err n min_bha max_bha min_ht max_ht).1 = some r →
      min_bha ≤ r ∧ r ≤ max_bha := by
  have herr : 0 < bha_err ht_err := by
    unfold bha_err
    split_ifs with h
    · norm_num
    · exact not_le.mp h
  refine ⟨herr, ?_⟩
  intro r hr
  simp only [find_bha] at hr
  split_ifs at hr with hmin hmax <;> dsimp only at hr
  · cases hr
    exact ⟨le_refl _, hlh⟩
  · cases hr
    exact ⟨hlh, le_refl _⟩
  · exact bha_while_mem f si ht (bha_err ht_err) min_bha max_bha n
      min_bha max_bha (ht + bha_err ht_err + 999) none
      (le_refl _) hlh (le_refl _) (by intro m hm; cases hm) r hr

/-- Witness for C10 at concrete inputs. -/
theorem find_bha_result_in_range_witness :
    (0 : ℚ) < bha_err (1/10) ∧
    ∀ r, (find_bha (fun a _ => a) 100 50 (1/10) 50 0 500 0 500).1 = some r →
      (0 : ℚ) ≤ r ∧ r ≤ 500 :=
  find_bha_result_in_range (fun a _ => a) 100 50 (1/10) 50 0 500 0 500
    (by norm_num)

/-- The precomputed half-step schedule of `find_age`
(misc_hg_funcs.py line 209): `0.5 ** arange(1, steps+1) * (max_age/2)`,
i.e. entry `k` (0-based) is `(1/2)^(k+1) * (max_age/2)`. -/
def half_steps (max_age : ℚ) (n : ℕ) : List ℚ :=
  (List.range n).map fun k => (1/2) ^ (k + 1) * (max_age / 2)

/-- The `for step in steps` loop of `find_age` (misc_hg_funcs.py lines
211-229), recursing over the remaining step schedule with the current
estimate `age_mid`.  Returns the final estimate together with the list of
estimates at which the height function was evaluated, in order.  The
source also updates `age_high`/`age_low`, but those locals are never read
afterwards and do not affect the result, so they are omitted here. -/
def find_age_go (f : ℚ → ℚ → ℚ) (si ht ht_err : ℚ) : ℚ → List ℚ → ℚ × List ℚ
  | age_mid, [] => (age_mid, [])
  | age_mid, step :: rest =>
    let ht_mid := f age_mid si
    if |ht_mid - ht| < ht_err then (age_mid, [age_mid])
    else if ht < ht_mid then
      let p := find_age_go f si ht ht_err (age_mid - step) rest
      (p.1, age_mid :: p.2)
    else
      let p := find_age_go f si ht ht_err (age_mid + step) rest
      (p.1, age_mid :: p.2)

/-- Function `find_age` (misc_hg_funcs.py lines 197-229): start the estimate at
`max_age/2` and walk the precomputed half-step schedule. -/
def find_age (f : ℚ → ℚ → ℚ) (si ht max_age : ℚ) (steps : ℕ) (ht_err : ℚ) :
    ℚ × List ℚ :=
  find_age_go f si ht ht_err (max_age / 2) (half_steps max_age steps)

/-- The half-step schedule in closed form: entry `k` is
`max_age / 2^(k+2)`, i.e. `max_age / 2^(j+1)` for the 1-based index
`j = k+1` used by the claim. -/
theorem half_steps_eq (A : ℚ) (n : ℕ) :
    half_steps A n = (List.range n).map fun k => A / 2 ^ (k + 2) := by
  unfold half_steps
  congr 1
  funext k
  rw [div_pow, one_pow, div_mul_div_comm, one_mul, ← pow_succ]

/-- The loop of `find_age` evaluates the height function first at the
starting estimate. -/
theorem find_age_go_head (f : ℚ → ℚ → ℚ) (si ht ht_err : ℚ) :
    ∀ (L : List ℚ) (a : ℚ), L ≠ [] →
      ((find_age_go f si ht ht_err a L).2)[0]? = some a := by
  intro L
  cases L with
  | nil => intro a h; exact absurd rfl h
  | cons s rest =>
    intro a _
    simp only [find_age_go]
    split_ifs <;> simp

/-- The loop of `find_age` performs at most one height evaluation per
scheduled step. -/
theorem find_age_go_len (f : ℚ → ℚ → ℚ) (si ht ht_err : ℚ) :
    ∀ (L : List ℚ) (a : ℚ),
      (find_age_go f si ht ht_err a L).2.length ≤ L.length := by
  intro L
  induction L with
  | nil => intro a; simp [find_age_go]
  | cons s rest ih =>
    intro a
    simp only [find_age_go]
    split_ifs <;> dsimp only <;> simp only [List.length_cons]
    · simp
    · exact Nat.succ_le_succ (ih (a - s))
    · exact Nat.succ_le_succ (ih (a + s))

/-- If some evaluated estimate is within tolerance, it is the last
evaluation performed and is returned unchanged. -/
theorem find_age_go_stop (f : ℚ → ℚ → ℚ) (si ht ht_err : ℚ) :
    ∀ (L : List ℚ) (a : ℚ) (j : ℕ) (x : ℚ),
      ((find_age_go f si ht ht_err a L).2)[j]? = some x →
      |f x si - ht| < ht_err →
      j + 1 = (find_age_go f si ht ht_err a L).2.length ∧
      (find_age_go f si ht ht_err a L).1 = x := by
  intro L
  induction L with
  | nil => intro a j x hx _; simp [find_age_go] at hx
  | cons s rest ih =>
    intro a j x hx htol
    simp only [find_age_go] at hx ⊢
    by_cases h1 : |f a si - ht| < ht_err
    · rw [if_pos h1] at hx ⊢
      cases j with
      | zero => simp at hx; simp [hx]
      | succ k => simp at hx
    · rw [if_neg h1] at hx ⊢
      by_cases h2 : ht < f a si
      · rw [if_pos h2] at hx ⊢
        dsimp only at hx ⊢
        cases j with
        | zero =>
          simp only [List.getElem?_cons_zero, Option.some.injEq] at hx
          exact absurd (hx ▸ htol) h1
        | succ k =>
          simp only [List.getElem?_cons_succ] at hx
          obtain ⟨hl, hr⟩ := ih (a - s) k x hx htol
          exact ⟨by simp [← hl], hr⟩
      · rw [if_neg h2] at hx ⊢
        dsimp only at hx ⊢
        cases j with
        | zero =>
          simp only [List.getElem?_cons_zero, Option.some.injEq] at hx
          exact absurd (hx ▸ htol) h1
        | succ k =>
          simp only [List.getElem?_cons_succ] at hx
          obtain ⟨hl, hr⟩ := ih (a + s) k x hx htol
          exact ⟨by simp [← hl], hr⟩

/-- Consecutive evaluated estimates: when the estimate at position `j` was
out of tolerance, the next estimate subtracts the scheduled step on an
overshoot and adds it on an undershoot. -/
theorem find_age_go_step (f : ℚ → ℚ → ℚ) (si ht ht_err : ℚ) :
    ∀ (L : List ℚ) (a : ℚ) (j : ℕ) (x y s : ℚ),
      ((find_age_go f si ht ht_err a L).2)[j]? = some x →
      ((find_age_go f si ht ht_err a L).2)[j+1]? = some y →
      L[j]? = some s →
      ¬ |f x si - ht| < ht_err ∧
      y = (if ht < f x si then x - s else x + s) := by
  intro L
  induction L with
  | nil => intro a j x y s hx _ _; simp [find_age_go] at hx
  | cons s0 rest ih =>
    intro a j x y s hx hy hs
    simp only [find_age_go] at hx hy
    by_cases h1 : |f a si - ht| < ht_err
    · rw [if_pos h1] at hy
      cases j <;> simp at hy
    · rw [if_neg h1] at hx hy
      by_cases h2 : ht < f a si
      · rw [if_pos h2] at hx hy
        dsimp only at hx hy
        cases j with
        | zero =>
          simp only [List.getElem?_cons_zero, Option.some.injEq] at hx hs
          simp only [List.getElem?_cons_succ] at hy
          subst hx
          subst hs
          refine ⟨h1, ?_⟩
          rw [if_pos h2]
          rcases hrest : rest with _ | ⟨b, t⟩
          · rw [hrest] at hy; simp [find_age_go] at hy
          · have hhd := find_age_go_head f si ht ht_err rest (a - s0)
              (by rw [hrest]; simp)
            rw [hy] at hhd
            exact Option.some.inj hhd
        | succ k =>
          simp only [List.getElem?_cons_succ] at hx hy hs
          exact ih (a - s0) k x y s hx hy hs
      · rw [if_neg h2] at hx hy
        dsimp only at hx hy
        cases j with
        | zero =>
          simp only [List.getElem?_cons_zero, Option.some.injEq] at hx hs
          simp only [List.getElem?_cons_succ] at hy
          subst hx
          subst hs
          refine ⟨h1, ?_⟩
          rw [if_neg h2]
          rcases hrest : rest with _ | ⟨b, t⟩
          · rw [hrest] at hy; simp [find_age_go] at hy
          · have hhd := find_age_go_head f si ht ht_err rest (a + s0)
              (by rw [hrest]; simp)
            rw [hy] at hhd
            exact Option.some.inj hhd
        | succ k =>
          simp only [List.getElem?_cons_succ] at hx hy hs
          exact ih (a + s0) k x y s hx hy hs

/-- If no evaluated estimate ever meets the tolerance, the loop of
`find_age` consumes the whole step schedule: one evaluation per step. -/
theorem find_age_go_exhaust (f : ℚ → ℚ → ℚ) (si ht ht_err : ℚ) :
    ∀ (L : List ℚ) (a : ℚ),
      (∀ x ∈ (find_age_go f si ht ht_err a L).2, ¬ |f x si - ht| < ht_err) →
      (find_age_go f si ht ht_err a L).2.length = L.length := by
  intro L
  induction L with
  | nil => intro a _; simp [find_age_go]
  | cons s rest ih =>
    intro a hall
    simp only [find_age_go] at hall ⊢
    by_cases h1 : |f a si - ht| < ht_err
    · rw [if_pos h1] at hall
      exact absurd h1 (hall a (by simp))
    · rw [if_neg h1] at hall ⊢
      by_cases h2 : ht < f a si
      · rw [if_pos h2] at hall ⊢
        dsimp only at hall ⊢
        simp only [List.length_cons, List.length_cons]
        rw [ih (a - s) fun x hx => hall x (List.mem_cons_of_mem _ hx)]
      · rw [if_neg h2] at hall ⊢
        dsimp only at hall ⊢
        simp only [List.length_cons, List.length_cons]
        rw [ih (a + s) fun x hx => hall x (List.mem_cons_of_mem _ hx)]

/-- C6: with a positive maximum age and at least one step, `find_age`
starts its estimate at `max_age/2` (the first height evaluation is there);
its precomputed step schedule is exactly `max_age / 2^(k+1)` for
`k = 1..steps` (0-based entry `j` equals `max_age / 2^(j+2)`); it performs
at most `steps` height evaluations; an evaluation within `ht_err` of the
target is the last one and its estimate is returned; an out-of-tolerance
evaluation is followed by subtracting the scheduled step on an overshoot
and adding it on an undershoot; and when the tolerance is never met the
solver performs exactly `steps` correction iterations. -/
theorem find_age_half_step_schedule (f : ℚ → ℚ → ℚ) (si ht max_age ht_err : ℚ)
    (n : ℕ) (hA : 0 < max_age) (hn : 1 ≤ n) :
    half_steps max_age n = ((List.range n).map fun k => max_age / 2 ^ (k + 2)) ∧
    ((find_age f si ht max_age n ht_err).2)[0]? = some (max_age / 2) ∧
    (find_age f si ht max_age n ht_err).2.length ≤ n ∧
    (∀ j x, ((find_age f si ht max_age n ht_err).2)[j]? = some x →
      |f x si - ht| < ht_err →
      j + 1 = (find_age f si ht max_age n ht_err).2.length ∧
      (find_age f si ht max_age n ht_err).1 = x) ∧
    (∀ j x y, ((find_age f si ht max_age n ht_err).2)[j]? = some x →
      ((find_age f si ht max_age n ht_err).2)[j+1]? = some y →
      ¬ |f x si - ht| < ht_err ∧
      y = (if ht < f x si then x - max_age / 2 ^ (j + 2)
           else x + max_age / 2 ^ (j + 2))) ∧
    ((∀ x ∈ (find_age f si ht max_age n ht_err).2, ¬ |f x si - ht| < ht_err) →
      (find_age f si ht max_age n ht_err).2.length = n) := by
  have hlen : (half_steps max_age n).length = n := by simp [half_steps]
  have hne : half_steps max_age n ≠ [] := by
    intro h
    rw [h] at hlen
    simp at hlen
    omega
  refine ⟨half_steps_eq _ _, ?_, ?_, ?_, ?_, ?_⟩
  · exact find_age_go_head f si ht ht_err _ _ hne
  · simp only [find_age]
    have hb := find_age_go_len f si ht ht_err (half_steps max_age n)
      (max_age / 2)
    omega
  · intro j x hx htol
    simp only [find_age] at hx ⊢
    exact find_age_go_stop f si ht ht_err _ _ j x hx htol
  · intro j x y hx hy
    simp only [find_age] at hx hy
    have hj1 := (List.getElem?_eq_some_iff.mp hy).1
    have htot := find_age_go_len f si ht ht_err (half_steps max_age n)
      (max_age / 2)
    have hjn : j < n := by omega
    have hs' : (half_steps max_age n)[j]? = some (max_age / 2 ^ (j + 2)) := by
      rw [half_steps_eq, List.getElem?_map, List.getElem?_range hjn]
      rfl
    exact find_age_go_step f si ht ht_err _ _ j x y _ hx hy hs'
  · intro hall
    simp only [find_age] at hall ⊢
    rw [find_age_go_exhaust f si ht ht_err _ _ hall, hlen]

/-- Witness for C6 at a concrete height function and inputs. -/
theorem find_age_half_step_schedule_witness :
    half_steps 2 1 = ((List.range 1).map fun k => (2 : ℚ) / 2 ^ (k + 2)) ∧
    ((find_age (fun _ _ => 0) 0 0 2 1 1).2)[0]? = some ((2 : ℚ) / 2) ∧
    (find_age (fun _ _ => 0) 0 0 2 1 1).2.length ≤ 1 ∧
    (∀ j x, ((find_age (fun _ _ => 0) 0 0 2 1 1).2)[j]? = some x →
      |(fun _ _ => (0 : ℚ)) x 0 - 0| < 1 →
      j + 1 = (find_age (fun _ _ => 0) 0 0 2 1 1).2.length ∧
      (find_age (fun _ _ => 0) 0 0 2 1 1).1 = x) ∧
    (∀ j x y, ((find_age (fun _ _ => 0) 0 0 2 1 1).2)[j]? = some x →
      ((find_age (fun _ _ => 0) 0 0 2 1 1).2)[j+1]? = some y →
      ¬ |(fun _ _ => (0 : ℚ)) x 0 - 0| < 1 ∧
      y = (if (0 : ℚ) < (fun _ _ => (0 : ℚ)) x 0 then x - 2 / 2 ^ (j + 2)
           else x + 2 / 2 ^ (j + 2))) ∧
    ((∀ x ∈ (find_age (fun _ _ => 0) 0 0 2 1 1).2,
        ¬ |(fun _ _ => (0 : ℚ)) x 0 - 0| < 1) →
      (find_age (fun _ _ => 0) 0 0 2 1 1).2.length = 1) :=
  find_age_half_step_schedule (fun _ _ => 0) 0 0 2 1 1 (by norm_num) (by norm_num)

namespace DF_King_SiteCurve

/-- Method `DF_King_SiteCurve.height` (si.py lines 472-501): King (1966)
Douglas-fir total height from breast height age and site index.  The
decimal coefficients are exact rationals.  `none` models the
`ZeroDivisionError` raised when `si = 4.5` (computing `z50`) or when the
rational form's denominator vanishes (computing `ht`). -/
def height (bha si : ℚ) : Option ℚ :=
  let a0 : ℚ := -954038/1000000
  let a1 : ℚ := 109757/1000000
  let b0 : ℚ := 558178/10000000
  let b1 : ℚ := 792236/100000000
  let c0 : ℚ := -733819/1000000000
  let c1 : ℚ := 197693/1000000000
  if si - 9/2 = 0 then none
  else
    let z50 := 2500 / (si - 9/2)
    let a := a0 + a1 * z50
    let b := b0 + b1 * z50
    let c := c0 + c1 * z50
    if a + b * bha + c * (bha * bha) = 0 then none
    else some (bha * bha / (a + b * bha + c * (bha * bha)) + 9/2)

/-- Method `DF_King_SiteCurve.site_index` (si.py lines 503-528): the algebraic
inverse of King's height equation.  `none` models the `ZeroDivisionError`
raised when `ht = 4.5` (computing `i`) or when `j = 0` (computing `k/j`). -/
def site_index (bha ht : ℚ) : Option ℚ :=
  let a0 : ℚ := -954038/1000000
  let a1 : ℚ := 109757/1000000
  let b0 : ℚ := 558178/10000000
  let b1 : ℚ := 792236/100000000
  let c0 : ℚ := -733819/1000000000
  let c1 : ℚ := 197693/1000000000
  if ht - 9/2 = 0 then none
  else
    let i := bha ^ 2 / (ht - 9/2)
    let j := i - a0 - b0 * bha - c0 * bha ^ 2
    let k := a1 + b1 * bha + c1 * bha ^ 2
    if j = 0 then none
    else some (9/2 + 2500 * (k / j))

end DF_King_SiteCurve

namespace WH_Wiley_SiteCurve

/-- Method `WH_Wiley_SiteCurve.height` (si.py lines 553-570): Wiley (1978)
western hemlock total height (FIA PNW eq. 5a solved for height). -/
def height (bha si : ℚ) : Option ℚ :=
  let a0 : ℚ := 1394/10000
  let a1 : ℚ := 137/10000
  let a2 : ℚ := 7/100000
  let b0 : ℚ := -17307/10000
  let b1 : ℚ := -616/10000
  let b2 : ℚ := 192/100000
  if si - 9/2 = 0 then none
  else
    let z := 2500 / (si - 9/2)
    let i := a0 + a1 * bha + a2 * bha ^ 2
    let j := b0 + b1 * bha + b2 * bha ^ 2
    if z * i + j = 0 then none
    else some (bha ^ 2 / (z * i + j) + 9/2)

/-- Method `WH_Wiley_SiteCurve.site_index` (si.py lines 572-595): the algebraic
inverse of Wiley's height equation.  The source wraps the division in
`try/except` and returns `np.NaN` on the `ZeroDivisionError`, so this
function is total: it returns `PyVal.nan` (silently, after logging) when
the denominator vanishes, and a number otherwise. -/
def site_index (bha ht : ℚ) : PyVal :=
  let a0 : ℚ := 1394/10000
  let b0 : ℚ := 137/10000
  let c0 : ℚ := 7/100000
  let a1 : ℚ := -17307/10000
  let b1 : ℚ := -616/10000
  let c1 : ℚ := 192/100000
  let x := a0 + b0 * bha + c0 * bha ^ 2
  let y := a1 + b1 * bha + c1 * bha ^ 2
  if bha ^ 2 - (ht - 9/2) * y = 0 then .nan
  else .num (2500 * (((ht - 9/2) * x) / (bha ^ 2 - (ht - 9/2) * y)) + 9/2)

end WH_Wiley_SiteCurve

/-- The round-trip law for the King family at one (age, site index) pair:
the height call succeeds, feeding its value to the closed-form inverse
succeeds, and the recovered site index is within 0.1 of the original. -/
def king_roundtrip_ok (bha si : ℚ) : Prop :=
  ∃ h s, DF_King_SiteCurve.height bha si = some h ∧
    DF_King_SiteCurve.site_index bha h = some s ∧ |s - si| < 1/10

/-- The round-trip law for the Wiley family at one (age, site index) pair:
the height call succeeds, the closed-form inverse returns a number (not
NaN), and the recovered site index is within 0.1 of the original. -/
def wiley_roundtrip_ok (bha si : ℚ) : Prop :=
  ∃ h s, WH_Wiley_SiteCurve.height bha si = some h ∧
    WH_Wiley_SiteCurve.site_index bha h = PyVal.num s ∧ |s - si| < 1/10

/-- C8: the King (1966) family's concrete values: height(50,100) is within
0.1 of 100 (the index-age identity), height(15,70) is within 0.1 of 26.7,
and site_index(15, 26.7) is within 0.1 of 70. -/
theorem king_concrete_values :
    (∃ v, DF_King_SiteCurve.height 50 100 = some v ∧ |v - 100| < 1/10) ∧
    (∃ v, DF_King_SiteCurve.height 15 70 = some v ∧ |v - 267/10| < 1/10) ∧
    (∃ v, DF_King_SiteCurve.site_index 15 (267/10) = some v ∧ |v - 70| < 1/10) := by
  refine ⟨⟨2000017597871/20003910638, ?_, ?_⟩,
    ⟨315137612359/11808358302, ?_, ?_⟩,
    ⟨2159497250263/30834365614, ?_, ?_⟩⟩
  · norm_num [DF_King_SiteCurve.height]
  · rw [abs_sub_lt_iff]; norm_num
  · norm_num [DF_King_SiteCurve.height]
  · rw [abs_sub_lt_iff]; norm_num
  · norm_num [DF_King_SiteCurve.site_index]
  · rw [abs_sub_lt_iff]; norm_num

/-- C4 counterexample: a site index of 4, which is below the 4.5
breast-height offset (a singular-class input per the claim), makes King's
height return a normal finite value rather than raising; and Wiley's
site_index, at the singular input reached from its own minimum age
(`bha = 0`, `ht = 4.5`), silently returns NaN (the caught
`ZeroDivisionError`) instead of raising an error to the caller. -/
theorem singular_input_not_raised :
    ((4 : ℚ) ≤ 9/2) ∧
    (∃ v, DF_King_SiteCurve.height 50 4 = some v) ∧
    WH_Wiley_SiteCurve.site_index 0 (9/2) = PyVal.nan := by
  refine ⟨by norm_num, ⟨80009633519/20002140782, ?_⟩, ?_⟩
  · norm_num [DF_King_SiteCurve.height]
  · norm_num [WH_Wiley_SiteCurve.site_index]

/-- C4 amended: an explicit error is raised exactly at the division-by-zero
singularity — King's height raises for every age when `si = 4.5` — but a
site index strictly below 4.5 is not rejected (the call silently returns a
value), and Wiley's site_index catches its own division-by-zero and
silently returns NaN rather than raising. -/
theorem singularity_error_behavior :
    (∀ bha : ℚ, DF_King_SiteCurve.height bha (9/2) = none) ∧
    (∃ v, DF_King_SiteCurve.height 50 4 = some v) ∧
    WH_Wiley_SiteCurve.site_index 0 (9/2) = PyVal.nan := by
  refine ⟨fun bha => ?_, ⟨80009633519/20002140782, ?_⟩, ?_⟩
  · simp [DF_King_SiteCurve.height]
  · norm_num [DF_King_SiteCurve.height]
  · norm_num [WH_Wiley_SiteCurve.site_index]

/-- C3 counterexample: at `bha = 0` — the Wiley family's own `min_bha`,
hence inside the claimed age domain — and `si = 40` (its `min_si`), the
round-trip fails: height(0, 40) evaluates to exactly 4.5, and
site_index(0, 4.5) is NaN (caught division by zero), so no recovered site
index within 0.1 of 40 exists. -/
theorem wiley_roundtrip_fails_at_min_bha :
    WH_Wiley_SiteCurve.height 0 40 = some (9/2) ∧
    WH_Wiley_SiteCurve.site_index 0 (9/2) = PyVal.nan ∧
    ¬ wiley_roundtrip_ok 0 40 := by
  have hh : WH_Wiley_SiteCurve.height 0 40 = some (9/2) := by
    norm_num [WH_Wiley_SiteCurve.height]
  have hs : WH_Wiley_SiteCurve.site_index 0 (9/2) = PyVal.nan := by
    norm_num [WH_Wiley_SiteCurve.site_index]
  refine ⟨hh, hs, ?_⟩
  rintro ⟨h, s, hh', hs', _⟩
  have : h = 9/2 := Option.some.inj (hh'.symm.trans hh)
  rw [this, hs] at hs'
  exact PyVal.noConfusion hs'

/-- King's denominator quadratic regrouped by powers of `z50`: the part
independent of `z50`. -/
def kingP0 (bha : ℚ) : ℚ :=
  -954038/1000000 + 558178/10000000 * bha + -733819/1000000000 * bha ^ 2

/-- King's denominator quadratic regrouped by powers of `z50`: the
coefficient of `z50` (also the `k` of `site_index`). -/
def kingK (bha : ℚ) : ℚ :=
  109757/1000000 + 792236/100000000 * bha + 197693/1000000000 * bha ^ 2

theorem kingK_pos (bha : ℚ) (h : 10 ≤ bha) : 0 < kingK bha := by
  unfold kingK
  nlinarith [sq_nonneg bha]

theorem king_denom_pos (bha si : ℚ) (h1 : 10 ≤ bha) (h2 : bha ≤ 130)
    (h3 : 40 ≤ si) (h4 : si ≤ 160) :
    0 < kingP0 bha + 2500 / (si - 9/2) * kingK bha := by
  have hu : (0:ℚ) < si - 9/2 := by linarith
  have hzlb : (5000/311 : ℚ) ≤ 2500 / (si - 9/2) := by
    rw [div_le_div_iff (by norm_num) hu]
    linarith
  have hk := kingK_pos bha h1
  have hzk := mul_le_mul_of_nonneg_right hzlb hk.le
  unfold kingP0 kingK at *
  nlinarith [sq_nonneg bha]

theorem king_height_eval (bha si : ℚ) (h1 : si - 9/2 ≠ 0)
    (h2 : kingP0 bha + 2500 / (si - 9/2) * kingK bha ≠ 0) :
    DF_King_SiteCurve.height bha si
      = some (bha * bha / (kingP0 bha + 2500 / (si - 9/2) * kingK bha) + 9/2) := by
  have hco : (-954038/1000000 + 109757/1000000 * (2500 / (si - 9/2))) +
      (558178/10000000 + 792236/100000000 * (2500 / (si - 9/2))) * bha +
      (-733819/1000000000 + 197693/1000000000 * (2500 / (si - 9/2))) * (bha * bha)
      = kingP0 bha + 2500 / (si - 9/2) * kingK bha := by
    unfold kingP0 kingK
    ring
  simp only [DF_King_SiteCurve.height]
  rw [if_neg h1]
  simp only [hco]
  rw [if_neg h2]

/-- The King round-trip is exact on the family's domain. -/
theorem king_roundtrip (bha si : ℚ) (h1 : 10 ≤ bha) (h2 : bha ≤ 130)
    (h3 : 40 ≤ si) (h4 : si ≤ 160) : king_roundtrip_ok bha si := by
  have hu : (0:ℚ) < si - 9/2 := by linarith
  have hz0 : (0:ℚ) < 2500 / (si - 9/2) := div_pos (by norm_num) hu
  have hk := kingK_pos bha h1
  have hD := king_denom_pos bha si h1 h2 h3 h4
  have hb0 : (0:ℚ) < bha := by linarith
  have hbb : (0:ℚ) < bha * bha := mul_pos hb0 hb0
  refine ⟨bha * bha / (kingP0 bha + 2500 / (si - 9/2) * kingK bha) + 9/2, si,
    king_height_eval bha si hu.ne' hD.ne', ?_,
    by rw [sub_self, abs_zero]; norm_num⟩
  set D := kingP0 bha + 2500 / (si - 9/2) * kingK bha with hD_def
  simp only [DF_King_SiteCurve.site_index]
  have hfrac : (0:ℚ) < bha * bha / D := div_pos hbb hD
  have hc1 : ¬(bha * bha / D + 9/2 - 9/2 = 0) := by
    intro hcon
    exact hfrac.ne' (by linarith)
  rw [if_neg hc1]
  have hi : bha ^ 2 / (bha * bha / D + 9/2 - 9/2) = D := by
    rw [show bha * bha / D + 9/2 - 9/2 = bha * bha / D from by ring]
    rw [div_div_eq_mul_div, sq]
    exact mul_div_cancel_left₀ D hbb.ne'
  simp only [hi]
  have hj : D - -954038/1000000 - 558178/10000000 * bha -
      -733819/1000000000 * bha ^ 2 = 2500 / (si - 9/2) * kingK bha := by
    rw [hD_def]
    unfold kingP0
    ring
  simp only [hj]
  rw [if_neg (mul_pos hz0 hk).ne']
  have hknum : (109757/1000000 : ℚ) + 792236/100000000 * bha +
      197693/1000000000 * bha ^ 2 = kingK bha := rfl
  rw [hknum]
  have hcancel : kingK bha / (2500 / (si - 9/2) * kingK bha)
      = (si - 9/2) / 2500 := by
    rw [mul_comm, div_mul_eq_div_div, div_self hk.ne', one_div_div]
  rw [hcancel]
  congr 1
  ring

/-- Wiley's numerator quadratic `x` (the `i` of `height`). -/
def wileyX (bha : ℚ) : ℚ :=
  1394/10000 + 137/10000 * bha + 7/100000 * bha ^ 2

/-- Wiley's quadratic `y` (the `j` of `height`). -/
def wileyY (bha : ℚ) : ℚ :=
  -17307/10000 + -616/10000 * bha + 192/100000 * bha ^ 2

theorem wileyX_pos (bha : ℚ) (h : 0 < bha) : 0 < wileyX bha := by
  unfold wileyX
  nlinarith [sq_nonneg bha]

theorem wiley_denom_pos (bha si : ℚ) (h1 : 0 < bha) (h3 : 40 ≤ si)
    (h4 : si ≤ 160) :
    0 < 2500 / (si - 9/2) * wileyX bha + wileyY bha := by
  have hu : (0:ℚ) < si - 9/2 := by linarith
  have hzlb : (5000/311 : ℚ) ≤ 2500 / (si - 9/2) := by
    rw [div_le_div_iff (by norm_num) hu]
    linarith
  have hx := wileyX_pos bha h1
  have hzk := mul_le_mul_of_nonneg_right hzlb hx.le
  unfold wileyX wileyY at *
  nlinarith [sq_nonneg bha]

theorem wiley_height_eval (bha si : ℚ) (h1 : si - 9/2 ≠ 0)
    (h2 : 2500 / (si - 9/2) * wileyX bha + wileyY bha ≠ 0) :
    WH_Wiley_SiteCurve.height bha si
      = some (bha ^ 2 / (2500 / (si - 9/2) * wileyX bha + wileyY bha) + 9/2) := by
  have hco : 2500 / (si - 9/2) * (1394/10000 + 137/10000 * bha + 7/100000 * bha ^ 2) +
      (-17307/10000 + -616/10000 * bha + 192/100000 * bha ^ 2)
      = 2500 / (si - 9/2) * wileyX bha + wileyY bha := by
    unfold wileyX wileyY
    ring
  simp only [WH_Wiley_SiteCurve.height]
  rw [if_neg h1]
  simp only [hco]
  rw [if_neg h2]

/-- The Wiley round-trip is exact for every strictly positive age in the
family's domain. -/
theorem wiley_roundtrip (bha si : ℚ) (h1 : 0 < bha) (h2 : bha ≤ 150)
    (h3 : 40 ≤ si) (h4 : si ≤ 160) : wiley_roundtrip_ok bha si := by
  have hu : (0:ℚ) < si - 9/2 := by linarith
  have hz0 : (0:ℚ) < 2500 / (si - 9/2) := div_pos (by norm_num) hu
  have hx := wileyX_pos bha h1
  have hD := wiley_denom_pos bha si h1 h3 h4
  have hb2 : (0:ℚ) < bha ^ 2 := pow_pos h1 2
  refine ⟨bha ^ 2 / (2500 / (si - 9/2) * wileyX bha + wileyY bha) + 9/2, si,
    wiley_height_eval bha si hu.ne' hD.ne', ?_,
    by rw [sub_self, abs_zero]; norm_num⟩
  set D := 2500 / (si - 9/2) * wileyX bha + wileyY bha with hD_def
  simp only [WH_Wiley_SiteCurve.site_index]
  have hDne : 2500 / (si - 9/2) * wileyX bha + wileyY bha ≠ 0 := by
    rw [← hD_def]
    exact hD.ne'
  have hcond : bha ^ 2 - (bha ^ 2 / D + 9/2 - 9/2) *
      (-17307/10000 + -616/10000 * bha + 192/100000 * bha ^ 2)
      = bha ^ 2 * (2500 / (si - 9/2) * wileyX bha) / D := by
    rw [show bha ^ 2 / D + 9/2 - 9/2 = bha ^ 2 / D from by ring,
      show (-17307/10000 : ℚ) + -616/10000 * bha + 192/100000 * bha ^ 2
        = wileyY bha from rfl,
      div_mul_eq_mul_div, sub_div' _ _ _ hD.ne']
    congr 1
    rw [hD_def]
    ring
  simp only [hcond]
  have hcpos : (0:ℚ) < bha ^ 2 * (2500 / (si - 9/2) * wileyX bha) / D :=
    div_pos (mul_pos hb2 (mul_pos hz0 hx)) hD
  rw [if_neg hcpos.ne']
  have hxeq : (1394/10000 : ℚ) + 137/10000 * bha + 7/100000 * bha ^ 2
      = wileyX bha := rfl
  rw [hxeq, show bha ^ 2 / D + 9/2 - 9/2 = bha ^ 2 / D from by ring]
  congr 1
  have key : bha ^ 2 / D * wileyX bha /
      (bha ^ 2 * (2500 / (si - 9/2) * wileyX bha) / D) = (si - 9/2) / 2500 := by
    rw [div_mul_eq_mul_div, div_div_eq_mul_div, div_mul_cancel₀ _ hD.ne',
      mul_div_mul_left _ _ hb2.ne', mul_comm, div_mul_eq_div_div,
      div_self hx.ne', one_div_div]
  rw [key]
  ring

/-- C3 amended: for the two families with an algebraic closed-form inverse
the round-trip law `|site_index(bha, height(bha, si)) - si| < 0.1` holds —
with exact recovery — for King (1966) on its whole domain
[10,130]×[40,160], and for Wiley (1978) on (0,150]×[40,160]: the single
age `bha = 0` (Wiley's `min_bha`) must be excluded, since there the
height is the constant 4.5 and the inverse's division by zero yields NaN. -/
theorem roundtrip_law_amended :
    (∀ bha si : ℚ, 10 ≤ bha → bha ≤ 130 → 40 ≤ si → si ≤ 160 →
      king_roundtrip_ok bha si) ∧
    (∀ bha si : ℚ, 0 < bha → bha ≤ 150 → 40 ≤ si → si ≤ 160 →
      wiley_roundtrip_ok bha si) :=
  ⟨fun bha si h1 h2 h3 h4 => king_roundtrip bha si h1 h2 h3 h4,
   fun bha si h1 h2 h3 h4 => wiley_roundtrip bha si h1 h2 h3 h4⟩

/-- Witness for the amended C3 at a concrete in-domain input. -/
theorem roundtrip_law_amended_witness :
    king_roundtrip_ok 50 100 ∧ wiley_roundtrip_ok 50 100 :=
  ⟨roundtrip_law_amended.1 50 100 (by norm_num) (by norm_num) (by norm_num)
      (by norm_num),
   roundtrip_law_amended.2 50 100 (by norm_num) (by norm_num) (by norm_num)
      (by norm_num)⟩
